import Mathlib

/-!
Verification of `dfttk/structure_builders/sqs_db.py`.

The development shallowly embeds the three core pieces of that module:

* `_parse_atat_lattice` — a pyparsing grammar over ATAT `lat.in` text.
  It is modelled by explicit parser functions over `List Char`.  A parsed
  float token is kept as its written decimal components (`PNum`): the
  geometric float algebra performed by the external `pymatgen.Lattice`
  collaborator is out of scope (spec §1), and the program never compares
  or otherwise inspects the numeric values it parses.
* `lat_in_to_sqs` — decoding of atom label tokens, the digit-to-letter
  renaming of sublattice designators, and the canonical sorted
  sublattice model.  Python strings are modelled as `List Char`,
  `dict`/`set` as an insertion-ordered key list plus a membership-pruned
  value list (their iteration order is only consumed through `sorted`).
* `get_structures_from_database` / `lists_are_multiple` — the symmetry
  and site-ratio query.  Python exceptions (`NotImplementedError`,
  `IndexError`, `ZeroDivisionError`, pyparsing's `ParseException`) are
  modelled by the explicit result type `PyResult`.
-/

/-- A parsed float literal, kept as written: signed digits `mantissa`
(with `shift` digits after the decimal point) and the explicit exponent
`exp10` of a trailing `e`/`E` part.  The denoted value is
`mantissa * 10 ^ (exp10 - shift)`; the builder only moves these numbers
around, so no float arithmetic is modelled. -/
structure PNum where
  mantissa : Int
  shift : Nat
  exp10 : Int
  deriving DecidableEq

/-- A pyparsing parse-tree token: a converted float, a `Word` string, or
a `Group` of sub-results. -/
inductive PTree where
  | num (v : PNum)
  | word (s : List Char)
  | group (ts : List PTree)

abbrev Toks := List PTree

/-- A parser element: consumes a prefix of the input, yielding tokens and
the remaining input, or fails (pyparsing `ParseException`). -/
abbrev ParserFn := List Char → Option (Toks × List Char)

/-- pyparsing `DEFAULT_WHITE_CHARS = " \n\t"`. -/
def wsChars : List Char := [' ', '\n', '\t']

/-- Leading-whitespace skipping performed by every ordinary element. -/
def skipWS (s : List Char) : List Char := s.dropWhile (fun c => wsChars.contains c)

/-- Digit run value, e.g. `int("12") = 12`. -/
def digitsVal (ds : List Char) : Nat := ds.foldl (fun n c => 10 * n + (c.toNat - 48)) 0

/-- The optional `([eE][-+]?[0-9]+)?` tail of the float regex.  If the
group cannot match, nothing is consumed. -/
def matchExpTail (orig rest : List Char) : Int × List Char :=
  match rest with
  | '-' :: r2 =>
    let ds := r2.takeWhile Char.isDigit
    if ds.isEmpty then (0, orig) else (-(digitsVal ds : Int), r2.drop ds.length)
  | '+' :: r2 =>
    let ds := r2.takeWhile Char.isDigit
    if ds.isEmpty then (0, orig) else ((digitsVal ds : Int), r2.drop ds.length)
  | r2 =>
    let ds := r2.takeWhile Char.isDigit
    if ds.isEmpty then (0, orig) else ((digitsVal ds : Int), r2.drop ds.length)

def matchExpPart (s : List Char) : Int × List Char :=
  match s with
  | 'e' :: rest => matchExpTail s rest
  | 'E' :: rest => matchExpTail s rest
  | _ => (0, s)

/-- The float token regex `[-+]?[0-9]*\.?[0-9]+([eE][-+]?[0-9]+)?`,
anchored at the start of `s` (pyparsing `Regex` uses `re.match`).  The
branch where a dot is present but followed by no digit mirrors the
regex engine giving the dot back so that `[0-9]+` can still match. -/
def matchFloat (s : List Char) : Option (PNum × List Char) :=
  let sgnAndRest : Int × List Char :=
    match s with
    | '-' :: t => (-1, t)
    | '+' :: t => (1, t)
    | _ => (1, s)
  let sgn := sgnAndRest.1
  let s1 := sgnAndRest.2
  let ds1 := s1.takeWhile Char.isDigit
  let r1 := s1.drop ds1.length
  match r1 with
  | '.' :: r2 =>
    let ds2 := r2.takeWhile Char.isDigit
    if ds2.isEmpty then
      if ds1.isEmpty then none
      else
        let er := matchExpPart r1
        some (⟨sgn * (digitsVal ds1 : Int), 0, er.1⟩, er.2)
    else
      let er := matchExpPart (r2.drop ds2.length)
      some (⟨sgn * (digitsVal (ds1 ++ ds2) : Int), ds2.length, er.1⟩, er.2)
  | _ =>
    if ds1.isEmpty then none
    else
      let er := matchExpPart r1
      some (⟨sgn * (digitsVal ds1 : Int), 0, er.1⟩, er.2)

/-- `float_number`: skip whitespace, match the regex, convert. -/
def pFloat : ParserFn := fun s =>
  match matchFloat (skipWS s) with
  | none => none
  | some (v, rest) => some ([.num v], rest)

/-- `Word(alphas, alphanums + '_')`: first character a letter, then the
longest run of letters, digits and underscores. -/
def pWord : ParserFn := fun s =>
  match skipWS s with
  | c :: rest =>
    if c.isAlpha then
      let body := rest.takeWhile (fun d => d.isAlphanum || d == '_')
      some ([.word (c :: body)], rest.drop body.length)
    else none
  | [] => none

/-- `LineEnd()`: its whitespace skipping excludes the newline itself; it
matches a `'\n'` or the end of the input.  Both grammar occurrences are
wrapped in `Suppress`, so no token is produced. -/
def pLineEnd : ParserFn := fun s =>
  match s.dropWhile (fun c => c == ' ' || c == '\t') with
  | '\n' :: rest => some ([], rest)
  | [] => some ([], [])
  | _ => none

/-- pyparsing `And` (`+`). -/
def pSeq (p q : ParserFn) : ParserFn := fun s =>
  match p s with
  | none => none
  | some (r1, s1) =>
    match q s1 with
    | none => none
    | some (r2, s2) => some (r1 ++ r2, s2)

/-- pyparsing `MatchFirst` (`|`): the left alternative is tried first and
commits when it succeeds. -/
def pFirst (p q : ParserFn) : ParserFn := fun s =>
  match p s with
  | some r => some r
  | none => q s

/-- pyparsing `Group`. -/
def pGroup (p : ParserFn) : ParserFn := fun s =>
  match p s with
  | none => none
  | some (r, s1) => some ([.group r], s1)

/-- Repetition tail of `OneOrMore`; the fuel only bounds the recursion
and is always at least the input length, which suffices because every
element of this grammar consumes input when it succeeds. -/
def pRepeat (p : ParserFn) : Nat → Toks → List Char → Toks × List Char
  | 0, acc, s => (acc, s)
  | fuel + 1, acc, s =>
    match p s with
    | none => (acc, s)
    | some (r, s1) => pRepeat p fuel (acc ++ r) s1

/-- pyparsing `OneOrMore`. -/
def pMany1 (p : ParserFn) : ParserFn := fun s =>
  match p s with
  | none => none
  | some (r, s1) => some (pRepeat p (s1.length + 1) r s1)

/-- `vector = Group(float_number + float_number + float_number)`. -/
def vectorP : ParserFn := pGroup (pSeq pFloat (pSeq pFloat pFloat))

/-- `vector_line = vector + Suppress(LineEnd())`. -/
def vectorLineP : ParserFn := pSeq vectorP pLineEnd

/-- `coord_sys = Group((vector_line*3) | (vector + angles + Suppress(LineEnd())))`,
where `angles` is an alias of `vector`. -/
def coordSysP : ParserFn :=
  pGroup (pFirst (pSeq vectorLineP (pSeq vectorLineP vectorLineP))
                 (pSeq vectorP (pSeq vectorP pLineEnd)))

/-- `lattice = Group(vector + vector + vector)`. -/
def latticeP : ParserFn := pGroup (pSeq vectorP (pSeq vectorP vectorP))

/-- `atom = Group(vector + Group(OneOrMore(Word(alphas, alphanums + '_'))))`. -/
def atomP : ParserFn := pGroup (pSeq vectorP (pGroup (pMany1 pWord)))

/-- `atat_lattice_grammer = coord_sys + lattice + Group(OneOrMore(atom))`. -/
def atat_lattice_grammer : ParserFn :=
  pSeq coordSysP (pSeq latticeP (pGroup (pMany1 atomP)))

/-- `_parse_atat_lattice`: `parseString` without `parseAll`, i.e. any
unparsed trailing input is ignored. -/
def parse_atat_lattice (lattice_in : List Char) : Option Toks :=
  (atat_lattice_grammer lattice_in).map Prod.fst

/-- An atom record of the parse tree: a position and the raw label
tokens (the grammar guarantees at least one, the model does not need
to). -/
structure AtomRec (P : Type) where
  pos : P
  tokens : List (List Char)
  deriving DecidableEq

/-- The three parsed groups consumed by `lat_in_to_sqs`: the coordinate
system group (three vectors = direct matrix form, two vectors =
lengths/angles form, as distinguished by `len(atat_coord_system) == 3`),
the lattice block and the atom records. -/
structure ParsedLatticeFile (P : Type) where
  coordSystem : List (List PNum)
  lattice : List (List PNum)
  atoms : List (AtomRec P)
  deriving DecidableEq

/-- Positions as parsed: three float components. -/
abbrev Pos3 := List PNum

/-- Read one `vector` group of the tree. -/
def vecOfTree : PTree → Option (List PNum)
  | .group ts => ts.mapM (fun t => match t with | .num v => some v | _ => none)
  | _ => none

/-- Read one `atom` group: `for position, atoms in atat_atoms`. -/
def atomOfTree : PTree → Option (AtomRec Pos3)
  | .group [posT, .group wordTs] => do
    let p ← vecOfTree posT
    let ws ← wordTs.mapM (fun t => match t with | .word w => some w | _ => none)
    some ⟨p, ws⟩
  | _ => none

/-- Destructure `parsed_data[0] / [1] / [2]`.  For every tree the grammar
produces this succeeds; the `none` results model Python unpacking
failures that cannot occur. -/
def readParsed : Toks → Option (ParsedLatticeFile Pos3)
  | [.group coordTs, .group latTs, .group atomTs] => do
    let coord ← coordTs.mapM vecOfTree
    let lat ← latTs.mapM vecOfTree
    let atoms ← atomTs.mapM atomOfTree
    some ⟨coord, lat, atoms⟩
  | _ => none

/-- The exceptions the module can raise.  `ambiguousSublattice` and
`renameUnsupported` are the two distinct `NotImplementedError` raises of
`lat_in_to_sqs`; `indexError` is Python's `IndexError` from `atom[1]`
(or `atoms[0]`); `valueError` is the `ValueError` raised by
`chr(96 + int(rep_item))` when the codepoint exceeds `0x10FFFF`;
`zeroDivisionError` arises from `x % 0` in `lists_are_multiple`;
`overflowError` is the `OverflowError` raised by integer true division
whose quotient is too large for a float; `parseError` is pyparsing's
`ParseException`. -/
inductive PyError where
  | parseError
  | ambiguousSublattice
  | renameUnsupported
  | indexError
  | valueError
  | zeroDivisionError
  | overflowError
  deriving DecidableEq

/-- Result of a Python call: a value, or a raised exception. -/
inductive PyResult (α : Type) where
  | ok (val : α)
  | error (e : PyError)
  deriving DecidableEq

def isOkR : PyResult α → Bool
  | .ok _ => true
  | .error _ => false

/-- `str.lower` on a token (tokens are ASCII by the grammar). -/
def lowerTok (t : List Char) : List Char := t.map Char.toLower

/-- `str.split('_')` (the result is never empty). -/
def splitUnderscore : List Char → List (List Char)
  | [] => [[]]
  | c :: cs =>
    match splitUnderscore cs with
    | [] => [[]]
    | p :: ps => if c = '_' then [] :: p :: ps else (c :: p) :: ps

/-- `re.findall("\d+", s)`: the maximal runs of decimal digits, left to
right.  (The two `[[c]]` fallback branches are unreachable: when the
tail starts with a digit its run list is nonempty.) -/
def digitRuns : List Char → List (List Char)
  | [] => []
  | [c] => if c.isDigit then [[c]] else []
  | c :: d :: t =>
    if c.isDigit then
      if d.isDigit then
        match digitRuns (d :: t) with
        | run :: rs => (c :: run) :: rs
        | [] => [[c]]
      else [c] :: digitRuns (d :: t)
    else digitRuns (d :: t)

/-- Does `pat` occur at the very start of `s`? -/
def leadsWith : List Char → List Char → Bool
  | [], _ => true
  | _ :: _, [] => false
  | a :: as, b :: bs => a == b && leadsWith as bs

/-- Python `str.replace(pat, repl)`: replace every (left-to-right,
non-overlapping) occurrence.  The fuel only bounds the recursion; any
fuel at least `|s|` gives the replacement itself since every step
consumes input (the patterns used are nonempty digit runs). -/
def pyReplace (pat repl : List Char) : Nat → List Char → List Char
  | _, [] => []
  | 0, s => s
  | fuel + 1, c :: cs =>
    if leadsWith pat (c :: cs) then repl ++ pyReplace pat repl fuel ((c :: cs).drop pat.length)
    else c :: pyReplace pat repl fuel cs

/-- `chr(n)`: raises `ValueError` for codepoints above `0x10FFFF`
(Python otherwise returns the character; codepoints in the surrogate
block are not representable as a Lean `Char`, so theorems about the
produced letter carry a valid-codepoint hypothesis). -/
def pyChr (n : Nat) : PyResult Char :=
  if n < 1114112 then .ok (Char.ofNat n) else .error .valueError

/-- The loop of lines 109–110: for each found run in order, evaluate
`chr(96 + int(rep_item))` — which can raise — then replace every
occurrence of the run in the current designator. -/
def translateRuns : List (List Char) → List Char → PyResult (List Char)
  | [], cur => .ok cur
  | run :: rs, cur =>
    match pyChr (96 + digitsVal run) with
    | .error e => .error e
    | .ok c => translateRuns rs (pyReplace run [c] cur.length cur)

/-- Lines 108–110: find the digit runs of the designator, then replace
each found run — globally, as a substring — by `chr(96 + int(run))`,
propagating the `ValueError` of an out-of-range `chr`. -/
def translateSubl (subl : List Char) : PyResult (List Char) :=
  translateRuns (digitRuns subl) subl

/-- Lines 96–111: token-count guard, `atoms[0]`, the rename guard,
`atom.lower().split('_')`, then the digit translation of `atom[0]`
(lines 108–110, which can raise `ValueError`) and only afterwards the
`atom[1]` species access (line 111, which can raise `IndexError`).
Returns the decoded (translated sublattice, species) pair. -/
def decodeAtom (rename : Bool) (a : AtomRec P) : PyResult (List Char × List Char) :=
  if a.tokens.length > 1 then .error .ambiguousSublattice
  else
    match a.tokens with
    | [] => .error .indexError
    | tok :: _ =>
      if rename then
        match splitUnderscore (lowerTok tok) with
        | [] => .error .indexError
        | part0 :: parts =>
          match translateSubl part0 with
          | .error e => .error e
          | .ok subl =>
            match parts with
            | [] => .error .indexError
            | sp :: _ => .ok (subl, sp)
      else .error .renameUnsupported

/-- The loop state of `lat_in_to_sqs`: the two parallel output lists and
the `subl_model` dict, modelled as its insertion-ordered key list plus a
value function (sets as duplicate-free lists; both iteration orders are
only consumed through `sorted`). -/
structure BuildAcc (P : Type) where
  species_list : List (List Char)
  species_positions : List P
  subl_keys : List (List Char)
  subl_sets : List Char → List (List Char)

/-- One iteration of the atom loop (lines 112–115). -/
def stepAcc (acc : BuildAcc P) (a : AtomRec P) (subl sp : List Char) : BuildAcc P where
  species_list := acc.species_list ++ [('X' :: subl) ++ sp]
  species_positions := acc.species_positions ++ [a.pos]
  subl_keys := if subl ∈ acc.subl_keys then acc.subl_keys else acc.subl_keys ++ [subl]
  subl_sets := fun k =>
    if k = subl then
      (if sp ∈ acc.subl_sets subl then acc.subl_sets subl else acc.subl_sets subl ++ [sp])
    else acc.subl_sets k

/-- The atom loop (lines 94–115). -/
def processAtoms (rename : Bool) : List (AtomRec P) → BuildAcc P → PyResult (BuildAcc P)
  | [], acc => .ok acc
  | a :: rest, acc =>
    match decodeAtom rename a with
    | .error e => .error e
    | .ok (subl, sp) => processAtoms rename rest (stepAcc acc a subl sp)

def emptyAcc : BuildAcc P := ⟨[], [], [], fun _ => []⟩

/-- The abstract SQS value assembled at lines 117–122.  The two matrix
products taken by the external `pymatgen.Lattice` collaborator are out
of scope; the parsed coordinate-system and lattice blocks they are built
from are carried verbatim. -/
structure AbstractSQS (P : Type) where
  species_list : List (List Char)
  species_positions : List P
  sublattice_model : List (List (List Char))
  sublattice_names : List (List Char)
  direct_lattice : List (List PNum)
  coord_system : List (List PNum)
  deriving DecidableEq

/-- Lines 117–122: `sorted` keys, per-key `sorted(list(set(...)))`. -/
def finalizeSQS (parsed : ParsedLatticeFile P) (acc : BuildAcc P) : AbstractSQS P :=
  let names := List.insertionSort (· ≤ ·) acc.subl_keys
  { species_list := acc.species_list
    species_positions := acc.species_positions
    sublattice_model := names.map (fun s => List.insertionSort (· ≤ ·) (acc.subl_sets s))
    sublattice_names := names
    direct_lattice := parsed.lattice
    coord_system := parsed.coordSystem }

/-- Lines 91–122 of `lat_in_to_sqs`, from a destructured parse tree. -/
def buildSQS (parsed : ParsedLatticeFile P) (rename : Bool) : PyResult (AbstractSQS P) :=
  match processAtoms rename parsed.atoms emptyAcc with
  | .error e => .error e
  | .ok acc => .ok (finalizeSQS parsed acc)

/-- `lat_in_to_sqs`: parse, destructure, build. -/
def lat_in_to_sqs (atat_lattice_in : List Char) (rename : Bool) : PyResult (AbstractSQS Pos3) :=
  match parse_atat_lattice atat_lattice_in with
  | none => .error .parseError
  | some tree =>
    match readParsed tree with
    | none => .error .parseError
    | some parsed => buildSQS parsed rename

/-- Bit length of a natural number; the fuel only bounds the recursion
and any fuel at least the bit length is enough (inputs here are below
`2 ^ 1024`). -/
def bitLenAux : Nat → Nat → Nat
  | 0, _ => 0
  | fuel + 1, n => if n = 0 then 0 else bitLenAux fuel (n / 2) + 1

def bitLen (n : Nat) : Nat := bitLenAux 1030 n

/-- Round `n` to the nearest multiple of `2 ^ k`, ties to the even
multiple (IEEE round-to-nearest-even). -/
def roundNearestEven (n k : Nat) : Nat :=
  let p := 2 ^ k
  let q := n / p
  let r := n % p
  if r = 0 then n
  else if 2 * r < p then q * p
  else if 2 * r > p then (q + 1) * p
  else if q % 2 = 0 then q * p else (q + 1) * p

/-- Python's float value of a nonnegative integer (every finite double
at this magnitude is an integer, so the double is represented by its
exact integer value): integers below `2 ^ 53` are exact, larger ones
are rounded to 53 significant bits, and a result reaching `2 ^ 1024`
overflows (`OverflowError` from integer true division). -/
def floatOfNat (n : Nat) : PyResult Nat :=
  if n < 2 ^ 53 then .ok n
  else if 2 ^ 1024 ≤ n then .error .overflowError
  else if roundNearestEven n (bitLen n - 53) < 2 ^ 1024 then
    .ok (roundNearestEven n (bitLen n - 53))
  else .error .overflowError

/-- The float conversions of the comprehension `[x / y for ...]`, in
order, propagating the first overflow. -/
def floatQuotients : List Nat → PyResult (List Nat)
  | [] => .ok []
  | q :: rest =>
    match floatOfNat q with
    | .error e => .error e
    | .ok v =>
      match floatQuotients rest with
      | .error e => .error e
      | .ok vs => .ok (v :: vs)

/-- One direction of `lists_are_multiple`: evaluating
`all([(x % y == 0) for x, y in zip(a, b)])` raises `ZeroDivisionError`
as soon as some `y` is `0`; when all remainders vanish, the quotients
`x / y` (exact integers here, since divisibility holds) are converted
by float true division — distinct quotients of 2^53 and above can
collapse to the same double — and the direction holds when the set of
those doubles is a singleton. -/
def checkDirection (a b : List Nat) : PyResult Bool :=
  if (a.zip b).all (fun p => p.2 != 0) then
    if (a.zip b).all (fun p => p.1 % p.2 == 0) then
      match floatQuotients ((a.zip b).map (fun p => p.1 / p.2)) with
      | .error e => .error e
      | .ok qs => .ok (qs.dedup.length == 1)
    else .ok false
  else .error .zeroDivisionError

/-- Lines 279–302: length guard, then the two directions
`(l1, l2), (l2, l1)` in that order; the first direction that passes both
tests returns `True`, and `False` is returned after the loop. -/
def lists_are_multiple (l1 l2 : List Nat) : PyResult Bool :=
  if l1.length ≠ l2.length then .ok false
  else
    match checkDirection l1 l2 with
    | .error e => .error e
    | .ok true => .ok true
    | .ok false => checkDirection l2 l1

/-- The `symmetry` sub-document of a stored record; the query reads its
`symbol` field. -/
structure SpacegroupInfo where
  symbol : List Char
  deriving DecidableEq

/-- A stored SQS document, reduced to the two fields the query reads
plus an opaque payload standing for the rest of the document. -/
structure SQSRecord where
  symmetry : SpacegroupInfo
  sublattice_site_ratios : List (List Nat)
  doc_id : Nat
  deriving DecidableEq

/-- The tinydb query predicate of lines 305–308 on one record: the
symmetry test short-circuits the ratio test. -/
def recordPasses (symmetry : List Char) (subl_site_ratios : List Nat) (r : SQSRecord) :
    PyResult Bool :=
  if r.symmetry.symbol = symmetry then
    lists_are_multiple (r.sublattice_site_ratios.map List.sum) subl_site_ratios
  else .ok false

/-- `get_structures_from_database`: `db.search` evaluates the predicate
on each document in collection order; a raised exception aborts the
whole search.  The `subl_model` argument is part of the source signature
but never used by the query. -/
def get_structures_from_database (db : List SQSRecord) (symmetry : List Char)
    (subl_model : List (List (List Char))) (subl_site_ratios : List Nat) :
    PyResult (List SQSRecord) :=
  match db with
  | [] => .ok []
  | r :: rest =>
    match recordPasses symmetry subl_site_ratios r with
    | .error e => .error e
    | .ok m =>
      match get_structures_from_database rest symmetry subl_model subl_site_ratios with
      | .error e => .error e
      | .ok res => .ok (if m then r :: res else res)

/-! ## Specification-side definitions

These definitions follow the wording of the specification (not the
source); they exist to be compared against the embedded code. -/

/-- The letter the spec assigns to a digit run: codepoint
`'a' + d - 1`. -/
def specLetter (run : List Char) : Char := Char.ofNat ('a'.toNat + digitsVal run - 1)

/-- Helper of `specDigitTranslate`: the first argument is the input
still to scan, the second the (reversed) digit run currently open. -/
def specTranslateAux : List Char → List Char → List Char
  | [], cur => if cur.isEmpty then [] else [specLetter cur.reverse]
  | c :: cs, cur =>
    if c.isDigit then specTranslateAux cs (c :: cur)
    else if cur.isEmpty then c :: specTranslateAux cs []
    else specLetter cur.reverse :: c :: specTranslateAux cs []

/-- The digit-to-letter translation as the spec words it: scan for
maximal runs of decimal digits and replace each run — independently,
left to right, non-overlapping — by its letter, leaving every other
character unchanged. -/
def specDigitTranslate (s : List Char) : List Char := specTranslateAux s []

/-- The claim's one-direction proportionality condition: a single
common quotient `k` with exact divisibility at every index. -/
def uniformQuotient (a b : List Nat) : Prop :=
  ∃ k, ∀ p ∈ a.zip b, p.1 % p.2 = 0 ∧ p.1 / p.2 = k

/-- The claim's proportionality condition on a pair of ratio lists:
equal lengths and one of the two directions uniform. -/
def proportionalClaim (l1 l2 : List Nat) : Prop :=
  l1.length = l2.length ∧ (uniformQuotient l1 l2 ∨ uniformQuotient l2 l1)

/-- The total rounded value underlying `floatOfNat` (its value whenever
no overflow occurs). -/
def floatRound (n : Nat) : Nat :=
  if n < 2 ^ 53 then n else roundNearestEven n (bitLen n - 53)

/-- Total (exception-free) boolean version of one direction of
`lists_are_multiple`, valid whenever no divisor is zero and no quotient
overflows: all remainders vanish and the float-rounded quotients form a
singleton set. -/
def dirB (a b : List Nat) : Bool :=
  (a.zip b).all (fun p => p.1 % p.2 == 0) &&
    (((a.zip b).map (fun p => p.1 / p.2)).map floatRound).dedup.length == 1

/-- Total boolean version of `lists_are_multiple`. -/
def proportionalB (l1 l2 : List Nat) : Bool :=
  l1.length == l2.length && (dirB l1 l2 || dirB l2 l1)

/-- The translated sublattice name an atom record decodes to (junk `[]`
when decoding fails; only used where decoding succeeds). -/
def decodeSubl (a : AtomRec P) : List Char :=
  match decodeAtom true a with
  | .ok r => r.1
  | .error _ => []

/-- The species an atom record decodes to. -/
def decodeSpec (a : AtomRec P) : List Char :=
  match decodeAtom true a with
  | .ok r => r.2
  | .error _ => []

/-- The abstract species label emitted for an atom record. -/
def decodeLabel (a : AtomRec P) : List Char := ('X' :: decodeSubl a) ++ decodeSpec a

/-! ## Helper lemmas: the matcher -/

theorem floatOfNat_small {n : Nat} (h : n < 2 ^ 53) : floatOfNat n = .ok n := by
  unfold floatOfNat
  rw [if_pos h]

theorem floatRound_small {n : Nat} (h : n < 2 ^ 53) : floatRound n = n := by
  unfold floatRound
  rw [if_pos h]

theorem floatOfNat_ok_val {n v : Nat} (h : floatOfNat n = .ok v) : v = floatRound n := by
  unfold floatOfNat at h
  unfold floatRound
  split at h
  · rename_i hsmall
    rw [if_pos hsmall]
    exact ((PyResult.ok.injEq _ _).mp h).symm
  · rename_i hsmall
    rw [if_neg hsmall]
    split at h
    · exact absurd h (by simp)
    · split at h
      · exact ((PyResult.ok.injEq _ _).mp h).symm
      · exact absurd h (by simp)

theorem floatQuotients_ok_val : ∀ {l qs : List Nat},
    floatQuotients l = .ok qs → qs = l.map floatRound := by
  intro l
  induction l with
  | nil =>
    intro qs h
    unfold floatQuotients at h
    exact ((PyResult.ok.injEq _ _).mp h).symm
  | cons q rest ih =>
    intro qs h
    unfold floatQuotients at h
    cases hq : floatOfNat q with
    | error e => rw [hq] at h; simp at h
    | ok v =>
      rw [hq] at h
      cases hr : floatQuotients rest with
      | error e => rw [hr] at h; simp at h
      | ok vs =>
        rw [hr] at h
        simp only at h
        rw [List.map_cons, ← ih hr, ← floatOfNat_ok_val hq]
        exact ((PyResult.ok.injEq _ _).mp h).symm

theorem floatQuotients_small : ∀ {l : List Nat},
    (∀ q ∈ l, q < 2 ^ 53) → floatQuotients l = .ok l := by
  intro l
  induction l with
  | nil => intro _; rfl
  | cons q rest ih =>
    intro h
    unfold floatQuotients
    rw [floatOfNat_small (h q (by simp)), ih (fun x hx => h x (by simp [hx]))]

theorem exists_zip_right :
    ∀ (l1 l2 : List Nat), l1.length = l2.length → ∀ y ∈ l2, ∃ x, (x, y) ∈ l1.zip l2 := by
  intro l1
  induction l1 with
  | nil => intro l2 h y hy; cases l2 <;> simp_all
  | cons x xs ih =>
    intro l2 h y hy
    cases l2 with
    | nil => simp_all
    | cons z zs =>
      rcases List.mem_cons.mp hy with hz | hz
      · exact ⟨x, by simp [hz]⟩
      · obtain ⟨w, hw⟩ := ih zs (by simpa using h) y hz
        exact ⟨w, by simp [hw]⟩

theorem checkDirection_zero_guard {a b : List Nat}
    (h : ((a.zip b).all (fun p => p.2 != 0)) = false) :
    checkDirection a b = .error .zeroDivisionError := by
  unfold checkDirection
  rw [h]
  simp

theorem lists_are_multiple_error_of_zero {l1 l2 : List Nat} {e : PyError} (h0 : 0 ∈ l2)
    (h : lists_are_multiple l1 l2 = .error e) : e = .zeroDivisionError := by
  unfold lists_are_multiple at h
  by_cases hl : l1.length ≠ l2.length
  · rw [if_pos hl] at h; simp at h
  · rw [if_neg hl] at h
    push_neg at hl
    obtain ⟨x, hx⟩ := exists_zip_right l1 l2 hl 0 h0
    have hguard : ((l1.zip l2).all (fun p => p.2 != 0)) = false := by
      rcases hall : (l1.zip l2).all (fun p => p.2 != 0) with _ | _
      · rfl
      · have := List.all_eq_true.mp hall _ hx
        simp at this
    rw [checkDirection_zero_guard hguard] at h
    simp only at h
    exact ((PyResult.error.injEq _ _).mp h).symm

theorem recordPasses_error_of_zero {symmetry : List Char} {rat : List Nat} {r : SQSRecord}
    {e : PyError} (h0 : 0 ∈ rat) (h : recordPasses symmetry rat r = .error e) :
    e = .zeroDivisionError := by
  unfold recordPasses at h
  split at h
  · exact lists_are_multiple_error_of_zero h0 h
  · simp at h

theorem checkDirection_of_small {a b : List Nat} (hb : ∀ p ∈ a.zip b, 0 < p.2)
    (hs : ∀ p ∈ a.zip b, p.1 < 2 ^ 53) :
    checkDirection a b = .ok (dirB a b) := by
  have hq : ∀ q ∈ (a.zip b).map (fun p => p.1 / p.2), q < 2 ^ 53 := by
    intro q hm
    obtain ⟨p, hp, rfl⟩ := List.mem_map.mp hm
    exact Nat.lt_of_le_of_lt (Nat.div_le_self _ _) (hs p hp)
  have hmapid : ((a.zip b).map (fun p => p.1 / p.2)).map floatRound
      = (a.zip b).map (fun p => p.1 / p.2) :=
    (List.map_congr_left (fun q hm => floatRound_small (hq q hm))).trans (List.map_id _)
  unfold checkDirection dirB
  rw [if_pos (List.all_eq_true.mpr (fun p hp => by simpa using (hb p hp).ne'))]
  by_cases hdiv : ((a.zip b).all (fun p => p.1 % p.2 == 0)) = true
  · rw [if_pos hdiv, floatQuotients_small hq, hdiv, hmapid]
    simp
  · rw [if_neg hdiv]
    rcases hdb : (a.zip b).all (fun p => p.1 % p.2 == 0) with _ | _
    · simp
    · exact absurd hdb hdiv

theorem dedup_length_one_iff {l : List Nat} :
    l.dedup.length = 1 ↔ ∃ k, l ≠ [] ∧ ∀ x ∈ l, x = k := by
  constructor
  · intro h
    obtain ⟨k, hk⟩ := List.length_eq_one.mp h
    refine ⟨k, ?_, ?_⟩
    · intro hnil; rw [hnil] at hk; simp at hk
    · intro x hx
      have : x ∈ l.dedup := List.mem_dedup.mpr hx
      rw [hk] at this
      simpa using this
  · rintro ⟨k, hne, hall⟩
    have hnodup := List.nodup_dedup l
    have hmem : ∀ x ∈ l.dedup, x = k := fun x hx => hall x (List.mem_dedup.mp hx)
    have hknotnil : l.dedup ≠ [] := fun h => hne ((List.dedup_eq_nil l).mp h)
    cases hd : l.dedup with
    | nil => exact absurd hd hknotnil
    | cons c rest =>
      rw [hd] at hmem hnodup
      have hc : c = k := hmem c (by simp)
      cases rest with
      | nil => simp
      | cons c2 rest2 =>
        have hc2 : c2 = k := hmem c2 (by simp)
        rw [List.nodup_cons] at hnodup
        exact absurd (by simp [hc, hc2] : c ∈ c2 :: rest2) hnodup.1

theorem dirB_iff_uniform {a b : List Nat} (hne : a.zip b ≠ [])
    (hs : ∀ p ∈ a.zip b, p.1 < 2 ^ 53) :
    dirB a b = true ↔ uniformQuotient a b := by
  have hmapid : ((a.zip b).map (fun p => p.1 / p.2)).map floatRound
      = (a.zip b).map (fun p => p.1 / p.2) :=
    (List.map_congr_left (fun q hm => by
      obtain ⟨p, hp, rfl⟩ := List.mem_map.mp hm
      exact floatRound_small (Nat.lt_of_le_of_lt (Nat.div_le_self _ _) (hs p hp)))).trans
      (List.map_id _)
  unfold dirB uniformQuotient
  rw [hmapid, Bool.and_eq_true, List.all_eq_true, beq_iff_eq, dedup_length_one_iff]
  constructor
  · rintro ⟨hmod, k, _, hk⟩
    refine ⟨k, fun p hp => ⟨by simpa using hmod p hp, ?_⟩⟩
    exact hk _ (List.mem_map.mpr ⟨p, hp, rfl⟩)
  · rintro ⟨k, hk⟩
    refine ⟨fun p hp => by simpa using (hk p hp).1, k, ?_, ?_⟩
    · simpa [List.map_eq_nil_iff] using hne
    · intro x hx
      obtain ⟨p, hp, rfl⟩ := List.mem_map.mp hx
      exact (hk p hp).2

theorem checkDirection_ok_val {a b : List Nat} {v : Bool}
    (h : checkDirection a b = .ok v) : v = dirB a b := by
  unfold checkDirection at h
  unfold dirB
  split at h
  · split at h
    · rename_i hdiv
      cases hq : floatQuotients ((a.zip b).map (fun p => p.1 / p.2)) with
      | error e => rw [hq] at h; simp at h
      | ok qs =>
        rw [hq] at h
        simp only at h
        have hv : v = (qs.dedup.length == 1) := ((PyResult.ok.injEq _ _).mp h).symm
        rw [hv, floatQuotients_ok_val hq, hdiv]
        simp
    · rename_i hdiv
      have hv : v = false := ((PyResult.ok.injEq _ _).mp h).symm
      rcases hdb : (a.zip b).all (fun p => p.1 % p.2 == 0) with _ | _
      · simp [hv]
      · exact absurd hdb hdiv
  · exact absurd h (by simp)

theorem lists_are_multiple_ok_val {l1 l2 : List Nat} {v : Bool}
    (h : lists_are_multiple l1 l2 = .ok v) : v = proportionalB l1 l2 := by
  unfold lists_are_multiple at h
  unfold proportionalB
  by_cases hl : l1.length ≠ l2.length
  · rw [if_pos hl] at h
    have hv : v = false := ((PyResult.ok.injEq _ _).mp h).symm
    simp [hv, Ne.symm, beq_iff_eq, hl]
  · rw [if_neg hl] at h
    push_neg at hl
    cases hc : checkDirection l1 l2 with
    | error e2 => rw [hc] at h; simp at h
    | ok b1 =>
      rw [hc] at h
      have hb1 : b1 = dirB l1 l2 := checkDirection_ok_val hc
      cases b1 with
      | true =>
        simp only at h
        have hv : v = true := ((PyResult.ok.injEq _ _).mp h).symm
        simp [hv, beq_iff_eq, hl, ← hb1]
      | false =>
        simp only at h
        have hb2 : v = dirB l2 l1 := checkDirection_ok_val h
        simp [hb2, beq_iff_eq, hl, ← hb1]

/-! ## Claim C2 (corrected) -/

/-- C2, counterexample: the claimed iff already fails at `l1 = [1]`,
`l2 = [0]`: the reverse direction is uniform (`k = 0`), so the claimed
condition holds, but `lists_are_multiple` raises `ZeroDivisionError`
from `1 % 0` in the first direction instead of returning `True`.
(The pair `([], [])` is a second counterexample: the condition holds
vacuously while the code returns `False`.) -/
theorem C2_counterexample :
    ¬ (lists_are_multiple [1] [0] = .ok true ↔ proportionalClaim [1] [0]) := by
  intro h
  have h2 : proportionalClaim [1] [0] := ⟨rfl, Or.inr ⟨0, by decide⟩⟩
  exact absurd (h.mpr h2) (by decide)

/-- C2 (amended): for nonempty ratio lists with positive entries below
`2 ^ 53` — the range in which the float quotients of the code's
divisibility test are exact — `lists_are_multiple` returns `True`
exactly when the lists have equal length and, in at least one
direction, every element is exactly divisible by its counterpart with
one common quotient.  (Zero entries raise `ZeroDivisionError` instead
of returning, the empty pair returns `False` though the condition holds
vacuously, and from `2 ^ 53` on the float rounding of quotients can
collapse distinct quotients, so the exact-quotient reading fails
there too.) -/
theorem C2_proportionality (l1 l2 : List Nat) (hne : l1 ≠ [])
    (h1 : ∀ x ∈ l1, 0 < x) (h2 : ∀ x ∈ l2, 0 < x)
    (hs1 : ∀ x ∈ l1, x < 2 ^ 53) (hs2 : ∀ x ∈ l2, x < 2 ^ 53) :
    lists_are_multiple l1 l2 = .ok true ↔ proportionalClaim l1 l2 := by
  unfold lists_are_multiple
  by_cases hl : l1.length = l2.length
  case neg =>
    rw [if_pos hl]
    constructor
    · intro h; simp at h
    · rintro ⟨hlen, _⟩; exact absurd hlen hl
  case pos =>
    rw [if_neg (fun h => h hl)]
    have hl2ne : l2 ≠ [] := by
      intro hnil
      subst hnil
      exact hne (List.length_eq_zero.mp (by simpa using hl))
    have hz12 : l1.zip l2 ≠ [] := by
      intro hz
      rcases List.zip_eq_nil_iff.mp hz with hz | hz
      · exact hne hz
      · exact hl2ne hz
    have hz21 : l2.zip l1 ≠ [] := by
      intro hz
      rcases List.zip_eq_nil_iff.mp hz with hz | hz
      · exact hl2ne hz
      · exact hne hz
    have hp12 : ∀ p ∈ l1.zip l2, 0 < p.2 := fun p hp => h2 _ (List.of_mem_zip hp).2
    have hp21 : ∀ p ∈ l2.zip l1, 0 < p.2 := fun p hp => h1 _ (List.of_mem_zip hp).2
    have hs12 : ∀ p ∈ l1.zip l2, p.1 < 2 ^ 53 := fun p hp => hs1 _ (List.of_mem_zip hp).1
    have hs21 : ∀ p ∈ l2.zip l1, p.1 < 2 ^ 53 := fun p hp => hs2 _ (List.of_mem_zip hp).1
    rw [checkDirection_of_small hp12 hs12]
    cases hb1 : dirB l1 l2 with
    | true =>
      simp only
      exact ⟨fun _ => ⟨hl, Or.inl ((dirB_iff_uniform hz12 hs12).mp hb1)⟩, fun _ => trivial⟩
    | false =>
      simp only
      rw [checkDirection_of_small hp21 hs21]
      constructor
      · intro h
        have hb2 : dirB l2 l1 = true := (PyResult.ok.injEq _ _).mp h
        exact ⟨hl, Or.inr ((dirB_iff_uniform hz21 hs21).mp hb2)⟩
      · rintro ⟨_, huq | huq⟩
        · exact absurd ((dirB_iff_uniform hz12 hs12).mpr huq) (by simp [hb1])
        · rw [(dirB_iff_uniform hz21 hs21).mpr huq]

/-- C2, witness: the amended theorem applied to `[2, 4]` vs `[1, 2]`. -/
theorem C2_witness :
    (([2, 4] : List Nat) ≠ [] ∧ (∀ x ∈ ([2, 4] : List Nat), 0 < x) ∧
      (∀ x ∈ ([1, 2] : List Nat), 0 < x) ∧ (∀ x ∈ ([2, 4] : List Nat), x < 2 ^ 53) ∧
      (∀ x ∈ ([1, 2] : List Nat), x < 2 ^ 53)) ∧
    (lists_are_multiple [2, 4] [1, 2] = .ok true ↔ proportionalClaim [2, 4] [1, 2]) :=
  ⟨⟨by decide, by decide, by decide, by decide, by decide⟩,
   C2_proportionality [2, 4] [1, 2] (by decide) (by decide) (by decide) (by decide) (by decide)⟩

/-! ## Claim C6 (corrected) -/

set_option exponentiation.threshold 2048
set_option maxRecDepth 8192

/-- C6, counterexample: the ratio filter is not exact proportionality.
A record with per-sublattice sums `[2 ^ 54 + 1, 2 ^ 54 + 2]` IS
returned for query site ratios `[1, 1]` — the two true quotients
`2 ^ 54 + 1` and `2 ^ 54 + 2` are distinct, but Python's float
true-division rounds both to `2 ^ 54`, so the one-element-set test
passes — although the sums are not proportional to the query in the
claim's (exact single-quotient) sense in either direction. -/
theorem C6_counterexample :
    get_structures_from_database
        [⟨⟨"Pm-3m".data⟩, [[2 ^ 54 + 1], [2 ^ 54 + 2]], 7⟩] "Pm-3m".data [] [1, 1] =
      .ok [⟨⟨"Pm-3m".data⟩, [[2 ^ 54 + 1], [2 ^ 54 + 2]], 7⟩] ∧
    ¬ proportionalClaim [2 ^ 54 + 1, 2 ^ 54 + 2] [1, 1] := by
  refine ⟨by decide, ?_⟩
  rintro ⟨-, huq | huq⟩
  · obtain ⟨k, hk⟩ := huq
    have h1 := (hk (2 ^ 54 + 1, 1) (by decide)).2
    have h2 := (hk (2 ^ 54 + 2, 1) (by decide)).2
    rw [Nat.div_one] at h1 h2
    omega
  · obtain ⟨k, hk⟩ := huq
    have h1 := (hk (1, 2 ^ 54 + 1) (by decide)).1
    rw [Nat.mod_eq_of_lt (by norm_num)] at h1
    exact one_ne_zero h1

/-- C6 (amended): whenever the matcher returns a result, that result
is exactly the collection filtered — in collection-iteration order,
with no further sort — by exact symmetry-string equality together with
the code's ratio test (exact divisibility of every sum by its query
counterpart plus a single common float-rounded quotient, which below
`2 ^ 53` coincides with exact proportionality but above it can accept
distinct quotients); in particular a record whose symmetry differs
(e.g. `Fm-3m` vs `Pm-3m`) is never returned, however its ratios
compare. -/
theorem C6_matcher_returns_filter (db : List SQSRecord) (symmetry : List Char)
    (subl_model : List (List (List Char))) (subl_site_ratios : List Nat) (res : List SQSRecord)
    (h : get_structures_from_database db symmetry subl_model subl_site_ratios = .ok res) :
    res = db.filter (fun r =>
      r.symmetry.symbol == symmetry &&
      proportionalB (r.sublattice_site_ratios.map List.sum) subl_site_ratios) := by
  induction db generalizing res with
  | nil =>
    unfold get_structures_from_database at h
    exact ((PyResult.ok.injEq _ _).mp h).symm
  | cons r rest ih =>
    unfold get_structures_from_database at h
    cases hrp : recordPasses symmetry subl_site_ratios r with
    | error e => rw [hrp] at h; simp at h
    | ok m =>
      rw [hrp] at h
      cases hrec : get_structures_from_database rest symmetry subl_model subl_site_ratios with
      | error e => rw [hrec] at h; simp at h
      | ok res2 =>
        rw [hrec] at h
        simp only at h
        have hres : res = if m then r :: res2 else res2 := ((PyResult.ok.injEq _ _).mp h).symm
        have hm : m = (r.symmetry.symbol == symmetry &&
            proportionalB (r.sublattice_site_ratios.map List.sum) subl_site_ratios) := by
          unfold recordPasses at hrp
          by_cases hs : r.symmetry.symbol = symmetry
          · rw [if_pos hs] at hrp
            have hv := lists_are_multiple_ok_val hrp
            simp [hv, beq_iff_eq, hs]
          · rw [if_neg hs] at hrp
            have hv : m = false := ((PyResult.ok.injEq _ _).mp hrp).symm
            simp [hv, beq_iff_eq, hs]
        rw [List.filter_cons, hres, ih res2 hrec, ← hm]

/-- C6, witness: a four-record collection queried at symmetry `Pm-3m`
and site ratios `[2, 4]`; the two `Pm-3m` records with proportional
sums are returned in collection order, while the `Fm-3m` record with
identical sums and the non-proportional `Pm-3m` record are not. -/
theorem C6_witness :
    ([⟨⟨"Pm-3m".data⟩, [[1], [2]], 1⟩, ⟨⟨"Pm-3m".data⟩, [[2], [4]], 4⟩] : List SQSRecord) =
      ([⟨⟨"Pm-3m".data⟩, [[1], [2]], 1⟩, ⟨⟨"Fm-3m".data⟩, [[2], [4]], 2⟩,
        ⟨⟨"Pm-3m".data⟩, [[3], [4]], 3⟩, ⟨⟨"Pm-3m".data⟩, [[2], [4]], 4⟩] : List SQSRecord).filter
        (fun r => r.symmetry.symbol == "Pm-3m".data &&
          proportionalB (r.sublattice_site_ratios.map List.sum) [2, 4]) :=
  C6_matcher_returns_filter _ _ [] [2, 4] _ (by decide)

/-! ## Claim C10 (confirmed) -/

/-- C10: with equal lengths and a zero anywhere in the query site
ratios, `lists_are_multiple` raises `ZeroDivisionError` from the modulo
check instead of returning a boolean; consequently a whole
`get_structures_from_database` query aborts with that error as soon as
the collection holds a record with matching symmetry and matching
ratio-vector length. -/
theorem C10_zero_ratio_aborts :
    (∀ l1 l2 : List Nat, l1.length = l2.length → 0 ∈ l2 →
      lists_are_multiple l1 l2 = .error .zeroDivisionError) ∧
    (∀ (db : List SQSRecord) (symmetry : List Char) (subl_model : List (List (List Char)))
      (subl_site_ratios : List Nat), 0 ∈ subl_site_ratios →
      (∃ r ∈ db, r.symmetry.symbol = symmetry ∧
        (r.sublattice_site_ratios.map List.sum).length = subl_site_ratios.length) →
      get_structures_from_database db symmetry subl_model subl_site_ratios =
        .error .zeroDivisionError) := by
  constructor
  · intro l1 l2 hlen h0
    obtain ⟨x, hx⟩ := exists_zip_right l1 l2 hlen 0 h0
    have hguard : ((l1.zip l2).all (fun p => p.2 != 0)) = false := by
      rcases hall : (l1.zip l2).all (fun p => p.2 != 0) with _ | _
      · rfl
      · have := List.all_eq_true.mp hall _ hx
        simp at this
    unfold lists_are_multiple
    rw [if_neg (fun h => h hlen)]
    unfold checkDirection
    rw [hguard]
    simp
  · intro db symmetry subl_model subl_site_ratios h0 hex
    induction db with
    | nil => simp at hex
    | cons r0 rest ih =>
      obtain ⟨r, hr, hsym, hlen⟩ := hex
      rcases List.mem_cons.mp hr with hr0 | hrest
      · subst hr0
        have hlam : lists_are_multiple (r.sublattice_site_ratios.map List.sum)
            subl_site_ratios = .error .zeroDivisionError := by
          obtain ⟨x, hx⟩ := exists_zip_right _ _ hlen 0 h0
          have hguard : (((r.sublattice_site_ratios.map List.sum).zip subl_site_ratios).all
              (fun p => p.2 != 0)) = false := by
            rcases hall : ((r.sublattice_site_ratios.map List.sum).zip subl_site_ratios).all
                (fun p => p.2 != 0) with _ | _
            · rfl
            · have := List.all_eq_true.mp hall _ hx
              simp at this
          unfold lists_are_multiple
          rw [if_neg (fun h => h hlen)]
          unfold checkDirection
          rw [hguard]
          simp
        unfold get_structures_from_database
        unfold recordPasses
        rw [if_pos hsym, hlam]
      · have htail := ih ⟨r, hrest, hsym, hlen⟩
        unfold get_structures_from_database
        cases hrp : recordPasses symmetry subl_site_ratios r0 with
        | error e => rw [recordPasses_error_of_zero h0 hrp]
        | ok m => rw [htail]

/-- C10, witness: the theorem applied to `[2, 4]` vs `[1, 0]` and to a
one-record collection queried with a zero site ratio. -/
theorem C10_witness :
    lists_are_multiple [2, 4] [1, 0] = .error .zeroDivisionError ∧
    get_structures_from_database [⟨⟨"Pm-3m".data⟩, [[1], [2]], 1⟩] "Pm-3m".data [] [1, 0] =
      .error .zeroDivisionError :=
  ⟨C10_zero_ratio_aborts.1 [2, 4] [1, 0] rfl (by decide),
   C10_zero_ratio_aborts.2 _ _ [] [1, 0] (by decide)
     ⟨⟨⟨"Pm-3m".data⟩, [[1], [2]], 1⟩, by decide, rfl, rfl⟩⟩

/-! ## Helper lemmas: the builder's error behaviour -/

theorem toNat_ofNat_valid {n : Nat} (h : n < 55296) : (Char.ofNat n).toNat = n := by
  unfold Char.ofNat
  rw [dif_pos (Or.inl h)]
  rfl

/-- `str.lower` maps no character onto the separator `'_'`. -/
theorem toLower_ne_underscore {c : Char} (h : c ≠ '_') : c.toLower ≠ '_' := by
  intro hc
  simp only [Char.toLower] at hc
  split at hc
  · rename_i hcond
    have h95 := congrArg Char.toNat hc
    rw [toNat_ofNat_valid (by omega)] at h95
    have hu : ('_').toNat = 95 := by decide
    omega
  · exact h hc

theorem lowerTok_no_sep {t : List Char} (h : '_' ∉ t) : '_' ∉ lowerTok t := by
  intro hmem
  obtain ⟨c, hc, hlc⟩ := List.mem_map.mp hmem
  exact toLower_ne_underscore (fun heq => h (heq ▸ hc)) hlc

/-- A token without the separator splits into the single whole token. -/
theorem splitUnderscore_no_sep : ∀ {t : List Char}, '_' ∉ t → splitUnderscore t = [t] := by
  intro t
  induction t with
  | nil => intro _; rfl
  | cons c cs ih =>
    intro h
    have hc : c ≠ '_' := fun heq => h (by simp [heq])
    have hcs : '_' ∉ cs := fun hmem => h (by simp [hmem])
    unfold splitUnderscore
    rw [ih hcs]
    simp [hc]

theorem decodeAtom_multi {rename : Bool} {a : AtomRec P} (h : a.tokens.length > 1) :
    decodeAtom rename a = .error .ambiguousSublattice := by
  unfold decodeAtom
  rw [if_pos h]

theorem decodeAtom_no_rename {a : AtomRec P} {t : List Char} (ht : a.tokens = [t]) :
    decodeAtom false a = .error .renameUnsupported := by
  simp [decodeAtom, ht]

theorem decodeAtom_single_no_sep {a : AtomRec P} {t : List Char}
    (ht : a.tokens = [t]) (hsep : '_' ∉ t)
    (htr : isOkR (translateSubl (lowerTok t)) = true) :
    decodeAtom true a = .error .indexError := by
  cases h : translateSubl (lowerTok t) with
  | error e => rw [h] at htr; simp [isOkR] at htr
  | ok subl => simp [decodeAtom, ht, splitUnderscore_no_sep (lowerTok_no_sep hsep), h]

theorem processAtoms_cons_error {rename : Bool} {a : AtomRec P} {rest : List (AtomRec P)}
    {acc : BuildAcc P} {e : PyError} (h : decodeAtom rename a = .error e) :
    processAtoms rename (a :: rest) acc = .error e := by
  unfold processAtoms
  rw [h]

/-- Atom records that all decode successfully are consumed without
aborting: processing continues on the remaining records from some
accumulator. -/
theorem processAtoms_append_ok {rename : Bool} (pre rest : List (AtomRec P)) :
    ∀ acc : BuildAcc P, (∀ a ∈ pre, isOkR (decodeAtom rename a) = true) →
    ∃ acc2, processAtoms rename (pre ++ rest) acc = processAtoms rename rest acc2 := by
  induction pre with
  | nil => intro acc _; exact ⟨acc, rfl⟩
  | cons a pre ih =>
    intro acc hall
    have ha := hall a (by simp)
    cases hda : decodeAtom rename a with
    | error e => rw [hda] at ha; simp [isOkR] at ha
    | ok r =>
      obtain ⟨subl, sp⟩ := r
      have hstep : processAtoms rename ((a :: pre) ++ rest) acc
          = processAtoms rename (pre ++ rest) (stepAcc acc a subl sp) := by
        show (match decodeAtom rename a with
          | PyResult.error e => PyResult.error e
          | PyResult.ok (subl, sp) => processAtoms rename (pre ++ rest) (stepAcc acc a subl sp)) = _
        rw [hda]
      rw [hstep]

      exact ih _ (fun x hx => hall x (by simp [hx]))

/-! ## Claim C9 (corrected) -/

/-- C9, counterexample: a parsed file whose first atom record carries
two tokens fails under `rename = false` with the ambiguous-sublattice
error (the token-count guard precedes the rename guard), not with the
unsupported-operation error the claim names. -/
theorem C9_counterexample :
    buildSQS (⟨[], [], [⟨(0 : Nat), ["a_B".data, "b_C".data]⟩]⟩ : ParsedLatticeFile Nat) false =
      .error .ambiguousSublattice ∧
    buildSQS (⟨[], [], [⟨(0 : Nat), ["a_B".data, "b_C".data]⟩]⟩ : ParsedLatticeFile Nat) false ≠
      .error .renameUnsupported := ⟨by decide, by decide⟩

/-- C9 (amended): building with `rename = false` fails with the
unsupported-operation error for every parsed lattice file whose first
atom record carries exactly one label token (a multi-token first record
raises the ambiguous-sublattice error first instead). -/
theorem C9_rename_false_unsupported (p : ParsedLatticeFile P) (a : AtomRec P)
    (rest : List (AtomRec P)) (hatoms : p.atoms = a :: rest) (hone : a.tokens.length = 1) :
    buildSQS p false = .error .renameUnsupported := by
  obtain ⟨t, ht⟩ := List.length_eq_one.mp hone
  unfold buildSQS
  rw [hatoms, processAtoms_cons_error (decodeAtom_no_rename ht)]

/-- C9, witness. -/
theorem C9_witness :
    buildSQS (⟨[], [], [⟨(0 : Nat), ["a_B".data]⟩]⟩ : ParsedLatticeFile Nat) false =
      .error .renameUnsupported :=
  C9_rename_false_unsupported _ ⟨0, ["a_B".data]⟩ [] rfl rfl

/-! ## Claim C8 (corrected) -/

/-- C8, counterexample: a parsed file in which a malformed single-token
record (no separator) precedes the multi-token record fails with the
bare `IndexError`, not with the ambiguous-sublattice error the claim
names for every such file; likewise a preceding record whose
designator holds a digit run above the `chr` range fails with that
record's `ValueError` first. -/
theorem C8_counterexample :
    buildSQS (⟨[], [], [⟨(0 : Nat), ["aB".data]⟩, ⟨1, ["x_Y".data, "z_W".data]⟩]⟩ :
        ParsedLatticeFile Nat) true = .error .indexError ∧
    buildSQS (⟨[], [], [⟨(0 : Nat), ["aB".data]⟩, ⟨1, ["x_Y".data, "z_W".data]⟩]⟩ :
        ParsedLatticeFile Nat) true ≠ .error .ambiguousSublattice ∧
    buildSQS (⟨[], [], [⟨(0 : Nat), ["x1114016_B".data]⟩, ⟨1, ["x_Y".data, "z_W".data]⟩]⟩ :
        ParsedLatticeFile Nat) true = .error .valueError ∧
    buildSQS (⟨[], [], [⟨(0 : Nat), ["x1114016_B".data]⟩, ⟨1, ["x_Y".data, "z_W".data]⟩]⟩ :
        ParsedLatticeFile Nat) true ≠ .error .ambiguousSublattice :=
  ⟨by decide, by decide, by decide, by decide⟩

/-- C8 (amended): building with `rename = true` fails with the
ambiguous-sublattice error, and yields no descriptor, for every parsed
lattice file containing a record with more than one label token,
provided every record before it decodes cleanly (otherwise the earlier
record's own error is raised first). -/
theorem C8_multi_token_ambiguous (p : ParsedLatticeFile P) (pre : List (AtomRec P))
    (bad : AtomRec P) (post : List (AtomRec P)) (hatoms : p.atoms = pre ++ bad :: post)
    (hbad : bad.tokens.length > 1)
    (hpre : ∀ a ∈ pre, isOkR (decodeAtom true a) = true) :
    buildSQS p true = .error .ambiguousSublattice := by
  obtain ⟨acc2, hacc⟩ := processAtoms_append_ok pre (bad :: post) emptyAcc hpre
  unfold buildSQS
  rw [hatoms, hacc, processAtoms_cons_error (decodeAtom_multi hbad)]

/-- C8, witness. -/
theorem C8_witness :
    buildSQS (⟨[], [], [⟨(0 : Nat), ["a_B".data]⟩, ⟨1, ["x_Y".data, "z_W".data]⟩]⟩ :
        ParsedLatticeFile Nat) true = .error .ambiguousSublattice :=
  C8_multi_token_ambiguous _ [⟨0, ["a_B".data]⟩] ⟨1, ["x_Y".data, "z_W".data]⟩ [] rfl
    (by decide) (by decide)

/-! ## Claim C3 (corrected) -/

/-- C3, counterexample: a single-token record without the separator
makes the build fail with the bare, unnamed `IndexError` raised by
`atom[1]` — the module has no dedicated malformed-label error at all,
so the failure is precisely the kind of unrelated error the claim
excludes (it is not either of the two named `NotImplementedError`
raises).  Moreover the failure is not even always the `IndexError`:
the digit translation runs before the species access, so the
separator-free token `x1114016` fails with the `ValueError` raised by
`chr(96 + 1114016)` instead. -/
theorem C3_counterexample :
    buildSQS (⟨[], [], [⟨(0 : Nat), ["aB".data]⟩]⟩ : ParsedLatticeFile Nat) true =
      .error .indexError ∧
    buildSQS (⟨[], [], [⟨(0 : Nat), ["aB".data]⟩]⟩ : ParsedLatticeFile Nat) true ≠
      .error .ambiguousSublattice ∧
    buildSQS (⟨[], [], [⟨(0 : Nat), ["aB".data]⟩]⟩ : ParsedLatticeFile Nat) true ≠
      .error .renameUnsupported ∧
    buildSQS (⟨[], [], [⟨(0 : Nat), ["x1114016".data]⟩]⟩ : ParsedLatticeFile Nat) true =
      .error .valueError ∧
    buildSQS (⟨[], [], [⟨(0 : Nat), ["x1114016".data]⟩]⟩ : ParsedLatticeFile Nat) true ≠
      .error .indexError := ⟨by decide, by decide, by decide, by decide, by decide⟩

/-- C3 (amended): building with `rename = true` fails — with the
generic index-out-of-range error from accessing the missing species
component, not a named malformed-label error — for every parsed
lattice file containing a record whose single token has no `'_'`
separator, provided every record before it decodes cleanly and the
digit translation of the malformed token (which the code runs before
the species access) does not itself raise a `ValueError`. -/
theorem C3_no_separator_index_error (p : ParsedLatticeFile P) (pre : List (AtomRec P))
    (bad : AtomRec P) (post : List (AtomRec P)) (t : List Char)
    (hatoms : p.atoms = pre ++ bad :: post) (hbadtok : bad.tokens = [t]) (hsep : '_' ∉ t)
    (htr : isOkR (translateSubl (lowerTok t)) = true)
    (hpre : ∀ a ∈ pre, isOkR (decodeAtom true a) = true) :
    buildSQS p true = .error .indexError := by
  obtain ⟨acc2, hacc⟩ := processAtoms_append_ok pre (bad :: post) emptyAcc hpre
  unfold buildSQS
  rw [hatoms, hacc, processAtoms_cons_error (decodeAtom_single_no_sep hbadtok hsep htr)]

/-- C3, witness. -/
theorem C3_witness :
    buildSQS (⟨[], [], [⟨(0 : Nat), ["a_B".data]⟩, ⟨1, ["aB".data]⟩]⟩ :
        ParsedLatticeFile Nat) true = .error .indexError :=
  C3_no_separator_index_error _ [⟨0, ["a_B".data]⟩] ⟨1, ["aB".data]⟩ [] "aB".data rfl rfl
    (by decide) (by decide) (by decide)

/-! ## Helper lemmas: digit runs and replacement (claim C4) -/

theorem digitRuns_nil_no_digit : ∀ {s : List Char}, digitRuns s = [] → ∀ c ∈ s, c.isDigit = false := by
  intro s
  induction s with
  | nil => simp
  | cons c cs ih =>
    intro h x hx
    by_cases hc : c.isDigit = true
    · exfalso
      cases cs with
      | nil => simp [digitRuns, hc] at h
      | cons d t =>
        simp only [digitRuns, if_pos hc] at h
        by_cases hd : d.isDigit = true
        · rw [if_pos hd] at h
          split at h <;> simp at h
        · rw [if_neg hd] at h; simp at h
    · rcases List.mem_cons.mp hx with rfl | hx2
      · simpa using hc
      · refine ih ?_ x hx2
        cases cs with
        | nil => rfl
        | cons d t => simpa only [digitRuns, if_neg hc] using h

theorem digitRuns_cons_digit_ne_nil {d : Char} {t : List Char} (hd : d.isDigit = true) :
    digitRuns (d :: t) ≠ [] := by
  cases t with
  | nil => simp [digitRuns, hd]
  | cons e u =>
    simp only [digitRuns, if_pos hd]
    by_cases he : e.isDigit = true
    · rw [if_pos he]
      split <;> simp
    · rw [if_neg he]; simp

theorem digitRuns_decomp : ∀ (s : List Char) {r : List Char} {rs : List (List Char)},
    digitRuns s = r :: rs →
    ∃ pre rest, s = pre ++ r ++ rest ∧ (∀ c ∈ pre, c.isDigit = false) ∧ r ≠ [] ∧
      (∀ c ∈ r, c.isDigit = true) ∧ digitRuns rest = rs := by
  intro s
  induction s with
  | nil => intro r rs h; simp [digitRuns] at h
  | cons c cs ih =>
    intro r rs h
    by_cases hc : c.isDigit = true
    · cases cs with
      | nil =>
        have hval : digitRuns [c] = [[c]] := by simp [digitRuns, hc]
        rw [hval] at h
        injection h with h1 h2
        exact ⟨[], [], by simp [← h1], by simp, by simp [← h1], by
          intro x hx; rw [← h1] at hx; simp at hx; rw [hx]; exact hc, by rw [← h2]; rfl⟩
      | cons d t =>
        by_cases hd : d.isDigit = true
        · have hne := digitRuns_cons_digit_ne_nil (t := t) hd
          cases hdr : digitRuns (d :: t) with
          | nil => exact absurd hdr hne
          | cons run rs2 =>
            have hval : digitRuns (c :: d :: t) = (c :: run) :: rs2 := by
              simp only [digitRuns, if_pos hc, if_pos hd, hdr]
            rw [hval] at h
            injection h with h1 h2
            obtain ⟨pre, rest, hs, hpre, _, hrdig, hrest⟩ := ih hdr
            have hprenil : pre = [] := by
              cases pre with
              | nil => rfl
              | cons x xs =>
                exfalso
                have hx : x.isDigit = false := hpre x (by simp)
                have hxd : x = d := by
                  have hh := congrArg List.head? hs
                  simpa using hh.symm
                rw [hxd, hd] at hx
                simp at hx
            subst hprenil
            simp only [List.nil_append] at hs
            refine ⟨[], rest, ?_, by simp, by simp [← h1], ?_, by rw [← h2]; exact hrest⟩
            · rw [← h1]
              simp [hs]
            · intro x hx
              rw [← h1] at hx
              rcases List.mem_cons.mp hx with rfl | hx2
              · exact hc
              · exact hrdig x hx2
        · have hval : digitRuns (c :: d :: t) = [c] :: digitRuns (d :: t) := by
            simp only [digitRuns, if_pos hc, if_neg hd]
          rw [hval] at h
          injection h with h1 h2
          refine ⟨[], d :: t, by simp [← h1], by simp, by simp [← h1], ?_, h2⟩
          intro x hx
          rw [← h1] at hx
          simp at hx
          rw [hx]
          exact hc
    · have hval : digitRuns (c :: cs) = digitRuns cs := by
        cases cs with
        | nil => simp [digitRuns, hc]
        | cons d t => simp only [digitRuns, if_neg hc]
      rw [hval] at h
      obtain ⟨pre, rest, hs, hpre, hrne, hrdig, hrest⟩ := ih h
      refine ⟨c :: pre, rest, by simp [hs], ?_, hrne, hrdig, hrest⟩
      intro x hx
      rcases List.mem_cons.mp hx with rfl | hx2
      · simpa using hc
      · exact hpre x hx2

theorem specTranslateAux_pass : ∀ (u v : List Char), (∀ c ∈ u, c.isDigit = false) →
    specTranslateAux (u ++ v) [] = u ++ specTranslateAux v [] := by
  intro u
  induction u with
  | nil => intro v _; rfl
  | cons c u2 ih =>
    intro v h
    have hc : c.isDigit = false := h c (by simp)
    simp only [List.cons_append, specTranslateAux, hc]
    simp only [Bool.false_eq_true, if_false, List.isEmpty_nil, if_true, List.append_eq]
    rw [ih v (fun x hx => h x (by simp [hx]))]

theorem specTranslateAux_digits : ∀ (r : List Char), (∀ c ∈ r, c.isDigit = true) →
    ∀ (v cur : List Char), specTranslateAux (r ++ v) cur = specTranslateAux v (r.reverse ++ cur) := by
  intro r
  induction r with
  | nil => intro _ v cur; rfl
  | cons c r2 ih =>
    intro h v cur
    have hc : c.isDigit = true := h c (by simp)
    simp only [List.cons_append, specTranslateAux, hc, if_true, List.append_eq]
    rw [ih (fun x hx => h x (by simp [hx])) v (c :: cur)]
    simp [List.append_assoc]

theorem specTranslateAux_clean (u : List Char) (h : ∀ c ∈ u, c.isDigit = false) :
    specTranslateAux u [] = u := by
  have hp := specTranslateAux_pass u [] h
  simpa [specTranslateAux] using hp

theorem specTranslateAux_stop (r post : List Char) (hrne : r ≠ [])
    (hpost : ∀ c ∈ post, c.isDigit = false) :
    specTranslateAux post r.reverse = specLetter r :: post := by
  have hrev : r.reverse.isEmpty = false := by
    cases hr : r.reverse with
    | nil => exact absurd (by simpa using congrArg List.reverse hr) hrne
    | cons _ _ => rfl
  cases post with
  | nil =>
    simp [specTranslateAux, hrev]
  | cons c cs =>
    have hc : c.isDigit = false := hpost c (by simp)
    simp only [specTranslateAux, hc, Bool.false_eq_true, if_false, hrev, List.reverse_reverse]
    rw [specTranslateAux_clean cs (fun x hx => hpost x (by simp [hx]))]

theorem leadsWith_append_self : ∀ (l v : List Char), leadsWith l (l ++ v) = true := by
  intro l v
  induction l with
  | nil => rfl
  | cons c l2 ih => simp [leadsWith, ih]

theorem leadsWith_digit_mismatch {p0 c : Char} {pr s : List Char}
    (hp : p0.isDigit = true) (hc : c.isDigit = false) :
    leadsWith (p0 :: pr) (c :: s) = false := by
  have hne : (p0 == c) = false := by
    rw [beq_eq_false_iff_ne]
    intro heq
    rw [heq, hc] at hp
    exact Bool.false_ne_true hp
  simp [leadsWith, hne]

theorem pyReplace_skip {p0 : Char} {pr repl : List Char} (hp : p0.isDigit = true) :
    ∀ (u : List Char), (∀ c ∈ u, c.isDigit = false) → ∀ (v : List Char) (fuel : Nat),
      (u ++ v).length ≤ fuel →
      pyReplace (p0 :: pr) repl fuel (u ++ v) =
        u ++ pyReplace (p0 :: pr) repl (fuel - u.length) v := by
  intro u
  induction u with
  | nil => intro _ v fuel _; simp
  | cons c u2 ih =>
    intro h v fuel hfuel
    have hc : c.isDigit = false := h c (by simp)
    cases fuel with
    | zero => simp at hfuel
    | succ f =>
      have hf2 : (u2 ++ v).length ≤ f := by
        simp only [List.cons_append, List.length_cons] at hfuel
        omega
      simp only [List.cons_append]
      simp only [pyReplace, leadsWith_digit_mismatch hp hc, Bool.false_eq_true, if_false,
        List.append_eq]
      rw [ih (fun x hx => h x (by simp [hx])) v f hf2]
      have harith : f + 1 - (c :: u2).length = f - u2.length := by
        simp only [List.length_cons]
        omega
      rw [harith]

theorem pyReplace_hit {p0 : Char} {pr repl v : List Char} {f : Nat} :
    pyReplace (p0 :: pr) repl (f + 1) ((p0 :: pr) ++ v) =
      repl ++ pyReplace (p0 :: pr) repl f v := by
  have hlw : leadsWith (p0 :: pr) (p0 :: (pr ++ v)) = true := by
    have hl := leadsWith_append_self (p0 :: pr) v
    rw [List.cons_append] at hl
    exact hl
  simp only [List.cons_append, pyReplace, List.append_eq, hlw, if_true]
  congr 1
  have hdrop : (p0 :: (pr ++ v)).drop (p0 :: pr).length = v := by
    have hd := List.drop_left (p0 :: pr) v
    rw [List.cons_append] at hd
    exact hd
  rw [hdrop]

theorem pyReplace_clean {p0 : Char} {pr repl : List Char} (hp : p0.isDigit = true)
    {u : List Char} (hu : ∀ c ∈ u, c.isDigit = false) {fuel : Nat} (hf : u.length ≤ fuel) :
    pyReplace (p0 :: pr) repl fuel u = u := by
  have hs := @pyReplace_skip p0 pr repl hp u hu [] fuel (by simp; exact hf)
  rw [List.append_nil] at hs
  rw [hs]
  cases fuel - u.length <;> simp [pyReplace]

theorem pyChr_valid {n : Nat} (h : Nat.isValidChar n) : pyChr n = .ok (Char.ofNat n) := by
  unfold pyChr
  rw [if_pos]
  rcases h with h | ⟨_, h⟩ <;> omega

theorem translateRuns_single {r cur : List Char} {c : Char}
    (h : pyChr (96 + digitsVal r) = .ok c) :
    translateRuns [r] cur = .ok (pyReplace r [c] cur.length cur) := by
  unfold translateRuns
  rw [h]
  rfl

/-! ## Claim C4 (corrected) -/

/-- C4, counterexample: on the designator `1a12` the code first
replaces every occurrence of the substring `"1"` (also the `1` inside
the later run `12`), yielding `aaa2`, whereas replacing each maximal
run independently would yield `aal`; and on the designator `1114016`
the translation does not produce a letter at all but raises the
`ValueError` of the out-of-range `chr(96 + 1114016)`. -/
theorem C4_counterexample :
    translateSubl "1a12".data ≠ .ok (specDigitTranslate "1a12".data) ∧
    translateSubl "1a12".data = .ok "aaa2".data ∧
    specDigitTranslate "1a12".data = "aal".data ∧
    translateSubl "1114016".data = .error .valueError :=
  ⟨by decide, by decide, by decide, by decide⟩

/-- C4 (amended): for every sublattice designator containing at most
one maximal digit run whose letter codepoint `96 + d` is a valid
(non-surrogate, in-range) codepoint, the translation replaces that run
by the letter at codepoint `'a' + d - 1` and changes no other
characters.  With two or more runs the sequential global string
replacement can corrupt other runs, and a run with `96 + d` past
`0x10FFFF` raises `ValueError` instead of translating. -/
theorem C4_digit_translation (s : List Char) (h : (digitRuns s).length ≤ 1)
    (hv : ∀ run ∈ digitRuns s, Nat.isValidChar (96 + digitsVal run)) :
    translateSubl s = .ok (specDigitTranslate s) := by
  cases hdr : digitRuns s with
  | nil =>
    unfold translateSubl
    rw [hdr]
    unfold specDigitTranslate
    rw [specTranslateAux_clean s (digitRuns_nil_no_digit hdr)]
    rfl
  | cons r rs2 =>
    have hrs2 : rs2 = [] := by
      rw [hdr] at h
      simpa using List.length_eq_zero.mp (by simpa using h)
    subst hrs2
    obtain ⟨pre, rest, hs, hpre, hrne, hrdig, hrest⟩ := digitRuns_decomp s hdr
    have hrestclean := digitRuns_nil_no_digit hrest
    obtain ⟨p0, pr, hp0⟩ : ∃ p0 pr, r = p0 :: pr := by
      cases r with
      | nil => exact absurd rfl hrne
      | cons a b => exact ⟨a, b, rfl⟩
    have hp0d : p0.isDigit = true := hrdig p0 (by simp [hp0])
    have hvr : Nat.isValidChar (96 + digitsVal r) := hv r (by rw [hdr]; simp)
    unfold translateSubl
    rw [hdr, translateRuns_single (pyChr_valid hvr)]
    congr 1
    subst hs
    rw [List.append_assoc, hp0]
    rw [pyReplace_skip hp0d pre hpre ((p0 :: pr) ++ rest) _ (by simp)]
    have hfuel : (pre ++ ((p0 :: pr) ++ rest)).length - pre.length
        = (pr.length + rest.length) + 1 := by
      simp only [List.length_append, List.length_cons]
      omega
    rw [hfuel, pyReplace_hit, pyReplace_clean hp0d hrestclean (by omega)]
    unfold specDigitTranslate
    rw [specTranslateAux_pass pre _ hpre]
    rw [specTranslateAux_digits (p0 :: pr) (by rw [← hp0]; exact hrdig) rest []]
    rw [List.append_nil]
    rw [specTranslateAux_stop (p0 :: pr) rest (by simp) hrestclean]
    have hletter : specLetter (p0 :: pr) = Char.ofNat (96 + digitsVal (p0 :: pr)) := by
      unfold specLetter
      have ha : ('a').toNat = 97 := by decide
      rw [ha]
      congr 1
      omega
    rw [hletter]
    rfl

/-- C4, witness: the amended theorem applied to the designator `a2`
(one digit run, valid codepoint), which translates to `ab`. -/
theorem C4_witness :
    ((digitRuns "a2".data).length ≤ 1) ∧
    (∀ run ∈ digitRuns "a2".data, Nat.isValidChar (96 + digitsVal run)) ∧
    translateSubl "a2".data = .ok (specDigitTranslate "a2".data) :=
  ⟨by decide, by decide, C4_digit_translation "a2".data (by decide) (by decide)⟩

/-! ## Helper lemmas: the canonicalization fold (claim C7) -/

/-- One loop iteration expressed through the total decoders (equal to
`stepAcc` whenever the atom decodes successfully). -/
def foldStep (acc : BuildAcc P) (a : AtomRec P) : BuildAcc P :=
  stepAcc acc a (decodeSubl a) (decodeSpec a)

theorem processAtoms_eq_fold (atoms : List (AtomRec P)) :
    ∀ acc : BuildAcc P, (∀ a ∈ atoms, isOkR (decodeAtom true a) = true) →
    processAtoms true atoms acc = .ok (atoms.foldl foldStep acc) := by
  induction atoms with
  | nil => intro acc _; rfl
  | cons a rest ih =>
    intro acc hall
    have ha := hall a (by simp)
    cases hda : decodeAtom true a with
    | error e => rw [hda] at ha; simp [isOkR] at ha
    | ok r =>
      obtain ⟨subl, sp⟩ := r
      have hsubl : decodeSubl a = subl := by unfold decodeSubl; rw [hda]
      have hsp : decodeSpec a = sp := by unfold decodeSpec; rw [hda]
      show (match decodeAtom true a with
        | PyResult.error e => PyResult.error e
        | PyResult.ok (subl, sp) => processAtoms true rest (stepAcc acc a subl sp)) = _
      rw [hda]
      show processAtoms true rest (stepAcc acc a subl sp) = _
      rw [ih _ (fun x hx => hall x (by simp [hx]))]
      simp only [List.foldl_cons, foldStep, hsubl, hsp]

theorem processAtoms_ok_forall (atoms : List (AtomRec P)) :
    ∀ (acc acc2 : BuildAcc P), processAtoms true atoms acc = .ok acc2 →
    ∀ a ∈ atoms, isOkR (decodeAtom true a) = true := by
  induction atoms with
  | nil => intro _ _ _ a ha; simp at ha
  | cons a rest ih =>
    intro acc acc2 h x hx
    cases hda : decodeAtom true a with
    | error e =>
      rw [processAtoms_cons_error hda] at h
      simp at h
    | ok r =>
      obtain ⟨subl, sp⟩ := r
      have hstep : processAtoms true (a :: rest) acc
          = processAtoms true rest (stepAcc acc a subl sp) := by
        show (match decodeAtom true a with
          | PyResult.error e => PyResult.error e
          | PyResult.ok (subl, sp) => processAtoms true rest (stepAcc acc a subl sp)) = _
        rw [hda]
      rw [hstep] at h
      rcases List.mem_cons.mp hx with rfl | hx2
      · rw [hda]; rfl
      · exact ih _ _ h x hx2

theorem foldl_species_list (atoms : List (AtomRec P)) :
    ∀ acc : BuildAcc P, (atoms.foldl foldStep acc).species_list
      = acc.species_list ++ atoms.map decodeLabel := by
  induction atoms with
  | nil => intro acc; simp
  | cons a rest ih =>
    intro acc
    rw [List.foldl_cons, ih]
    simp [foldStep, stepAcc, decodeLabel, List.append_assoc]

theorem foldl_positions (atoms : List (AtomRec P)) :
    ∀ acc : BuildAcc P, (atoms.foldl foldStep acc).species_positions
      = acc.species_positions ++ atoms.map AtomRec.pos := by
  induction atoms with
  | nil => intro acc; simp
  | cons a rest ih =>
    intro acc
    rw [List.foldl_cons, ih]
    simp [foldStep, stepAcc, List.append_assoc]

theorem foldl_keys_mem (atoms : List (AtomRec P)) :
    ∀ (acc : BuildAcc P) (s : List Char),
      s ∈ (atoms.foldl foldStep acc).subl_keys ↔
        s ∈ acc.subl_keys ∨ ∃ a ∈ atoms, decodeSubl a = s := by
  induction atoms with
  | nil => intro acc s; simp
  | cons a rest ih =>
    intro acc s
    rw [List.foldl_cons, ih]
    by_cases hmem : decodeSubl a ∈ acc.subl_keys
    · simp only [foldStep, stepAcc, if_pos hmem]
      constructor
      · rintro (h | ⟨x, hx, he⟩)
        · exact Or.inl h
        · exact Or.inr ⟨x, by simp [hx], he⟩
      · rintro (h | ⟨x, hx, he⟩)
        · exact Or.inl h
        · rcases List.mem_cons.mp hx with rfl | hx2
          · exact Or.inl (he ▸ hmem)
          · exact Or.inr ⟨x, hx2, he⟩
    · simp only [foldStep, stepAcc, if_neg hmem, List.mem_append, List.mem_singleton]
      constructor
      · rintro ((h | h) | ⟨x, hx, he⟩)
        · exact Or.inl h
        · exact Or.inr ⟨a, by simp, h.symm⟩
        · exact Or.inr ⟨x, by simp [hx], he⟩
      · rintro (h | ⟨x, hx, he⟩)
        · exact Or.inl (Or.inl h)
        · rcases List.mem_cons.mp hx with rfl | hx2
          · exact Or.inl (Or.inr he.symm)
          · exact Or.inr ⟨x, hx2, he⟩

theorem foldl_keys_nodup (atoms : List (AtomRec P)) :
    ∀ acc : BuildAcc P, acc.subl_keys.Nodup → (atoms.foldl foldStep acc).subl_keys.Nodup := by
  induction atoms with
  | nil => intro acc h; exact h
  | cons a rest ih =>
    intro acc h
    rw [List.foldl_cons]
    refine ih _ ?_
    by_cases hmem : decodeSubl a ∈ acc.subl_keys
    · simpa only [foldStep, stepAcc, if_pos hmem] using h
    · simp only [foldStep, stepAcc, if_neg hmem]
      rw [List.nodup_append]
      exact ⟨h, List.nodup_singleton _, fun x hx hx2 => hmem ((List.mem_singleton.mp hx2) ▸ hx)⟩

theorem foldl_sets_mem (atoms : List (AtomRec P)) :
    ∀ (acc : BuildAcc P) (k x : List Char),
      x ∈ (atoms.foldl foldStep acc).subl_sets k ↔
        x ∈ acc.subl_sets k ∨ ∃ a ∈ atoms, decodeSubl a = k ∧ decodeSpec a = x := by
  induction atoms with
  | nil => intro acc k x; simp
  | cons a rest ih =>
    intro acc k x
    rw [List.foldl_cons, ih]
    have hstep : (foldStep acc a).subl_sets k =
        if k = decodeSubl a then
          (if decodeSpec a ∈ acc.subl_sets (decodeSubl a) then acc.subl_sets (decodeSubl a)
           else acc.subl_sets (decodeSubl a) ++ [decodeSpec a])
        else acc.subl_sets k := rfl
    by_cases hk : k = decodeSubl a
    · subst hk
      rw [hstep, if_pos rfl]
      by_cases hsp : decodeSpec a ∈ acc.subl_sets (decodeSubl a)
      · rw [if_pos hsp]
        constructor
        · rintro (h | ⟨y, hy, he1, he2⟩)
          · exact Or.inl h
          · exact Or.inr ⟨y, by simp [hy], he1, he2⟩
        · rintro (h | ⟨y, hy, he1, he2⟩)
          · exact Or.inl h
          · rcases List.mem_cons.mp hy with rfl | hy2
            · exact Or.inl (he2 ▸ hsp)
            · exact Or.inr ⟨y, hy2, he1, he2⟩
      · rw [if_neg hsp]
        rw [List.mem_append, List.mem_singleton]
        constructor
        · rintro ((h | h) | ⟨y, hy, he1, he2⟩)
          · exact Or.inl h
          · exact Or.inr ⟨a, by simp, rfl, h.symm⟩
          · exact Or.inr ⟨y, by simp [hy], he1, he2⟩
        · rintro (h | ⟨y, hy, he1, he2⟩)
          · exact Or.inl (Or.inl h)
          · rcases List.mem_cons.mp hy with rfl | hy2
            · exact Or.inl (Or.inr he2.symm)
            · exact Or.inr ⟨y, hy2, he1, he2⟩
    · rw [hstep, if_neg hk]
      constructor
      · rintro (h | ⟨y, hy, he1, he2⟩)
        · exact Or.inl h
        · exact Or.inr ⟨y, by simp [hy], he1, he2⟩
      · rintro (h | ⟨y, hy, he1, he2⟩)
        · exact Or.inl h
        · rcases List.mem_cons.mp hy with rfl | hy2
          · exact absurd he1.symm hk
          · exact Or.inr ⟨y, hy2, he1, he2⟩

theorem foldl_sets_nodup (atoms : List (AtomRec P)) :
    ∀ acc : BuildAcc P, (∀ k, (acc.subl_sets k).Nodup) →
      ∀ k, ((atoms.foldl foldStep acc).subl_sets k).Nodup := by
  induction atoms with
  | nil => intro acc h; exact h
  | cons a rest ih =>
    intro acc h
    rw [List.foldl_cons]
    refine ih _ ?_
    intro k
    show (if k = decodeSubl a then
        (if decodeSpec a ∈ acc.subl_sets (decodeSubl a) then acc.subl_sets (decodeSubl a)
         else acc.subl_sets (decodeSubl a) ++ [decodeSpec a])
      else acc.subl_sets k).Nodup
    by_cases hk : k = decodeSubl a
    · rw [if_pos hk]
      by_cases hsp : decodeSpec a ∈ acc.subl_sets (decodeSubl a)
      · rw [if_pos hsp]; exact h _
      · rw [if_neg hsp]
        rw [List.nodup_append]
        exact ⟨h _, List.nodup_singleton _,
          fun x hx hx2 => hsp ((List.mem_singleton.mp hx2) ▸ hx)⟩
    · rw [if_neg hk]; exact h k

/-! ## Claim C7 (confirmed) -/

/-- C7: for every parsed lattice file and every permutation of its atom
records, a successful build with `rename = true` yields the same
`sublattice_model` and the same `sublattice_names` (both ascending
sorted, species lists duplicate-free), while the parallel abstract
species-label and position lists mirror the respective input
atom-record order exactly. -/
theorem C7_permutation_invariance {P : Type} (p q : ParsedLatticeFile P) (d : AbstractSQS P)
    (hperm : p.atoms.Perm q.atoms) (hp : buildSQS p true = .ok d) :
    ∃ e, buildSQS q true = .ok e ∧
      e.sublattice_model = d.sublattice_model ∧
      e.sublattice_names = d.sublattice_names ∧
      List.Sorted (· ≤ ·) d.sublattice_names ∧
      (∀ m ∈ d.sublattice_model, List.Sorted (· ≤ ·) m ∧ m.Nodup) ∧
      d.species_list = p.atoms.map decodeLabel ∧
      d.species_positions = p.atoms.map AtomRec.pos ∧
      e.species_list = q.atoms.map decodeLabel ∧
      e.species_positions = q.atoms.map AtomRec.pos := by
  have hallp : ∀ a ∈ p.atoms, isOkR (decodeAtom true a) = true := by
    unfold buildSQS at hp
    cases hpa : processAtoms true p.atoms emptyAcc with
    | error e => rw [hpa] at hp; simp at hp
    | ok accp => exact processAtoms_ok_forall _ _ _ hpa
  have hallq : ∀ a ∈ q.atoms, isOkR (decodeAtom true a) = true :=
    fun a ha => hallp a (hperm.mem_iff.mpr ha)
  have hpa := processAtoms_eq_fold p.atoms emptyAcc hallp
  have hqa := processAtoms_eq_fold q.atoms emptyAcc hallq
  have hd : d = finalizeSQS p (p.atoms.foldl foldStep emptyAcc) := by
    unfold buildSQS at hp
    rw [hpa] at hp
    exact ((PyResult.ok.injEq _ _).mp hp).symm
  have hbq : buildSQS q true = .ok (finalizeSQS q (q.atoms.foldl foldStep emptyAcc)) := by
    unfold buildSQS
    rw [hqa]
  have hkp : (p.atoms.foldl foldStep emptyAcc).subl_keys.Nodup :=
    foldl_keys_nodup _ _ (by simp [emptyAcc])
  have hkq : (q.atoms.foldl foldStep emptyAcc).subl_keys.Nodup :=
    foldl_keys_nodup _ _ (by simp [emptyAcc])
  have hkmem : ∀ s, s ∈ (p.atoms.foldl foldStep emptyAcc).subl_keys ↔
      s ∈ (q.atoms.foldl foldStep emptyAcc).subl_keys := by
    intro s
    rw [foldl_keys_mem, foldl_keys_mem]
    simp only [emptyAcc, List.not_mem_nil, false_or]
    constructor
    · rintro ⟨x, hx, he⟩; exact ⟨x, hperm.subset hx, he⟩
    · rintro ⟨x, hx, he⟩; exact ⟨x, hperm.symm.subset hx, he⟩
  have hkeysperm : (p.atoms.foldl foldStep emptyAcc).subl_keys.Perm
      (q.atoms.foldl foldStep emptyAcc).subl_keys :=
    (List.perm_ext_iff_of_nodup hkp hkq).mpr hkmem
  have hnames : List.insertionSort (· ≤ ·) (q.atoms.foldl foldStep emptyAcc).subl_keys
      = List.insertionSort (· ≤ ·) (p.atoms.foldl foldStep emptyAcc).subl_keys := by
    exact List.eq_of_perm_of_sorted
      ((List.perm_insertionSort _ _).trans
        (hkeysperm.symm.trans (List.perm_insertionSort _ _).symm))
      (List.sorted_insertionSort ((· ≤ ·) : List Char → List Char → Prop) _)
      (List.sorted_insertionSort ((· ≤ ·) : List Char → List Char → Prop) _)
  have hsetsnodupP : ∀ k, ((p.atoms.foldl foldStep emptyAcc).subl_sets k).Nodup :=
    foldl_sets_nodup _ _ (by simp [emptyAcc])
  have hsetsnodupQ : ∀ k, ((q.atoms.foldl foldStep emptyAcc).subl_sets k).Nodup :=
    foldl_sets_nodup _ _ (by simp [emptyAcc])
  have hsets : ∀ k, List.insertionSort (· ≤ ·) ((q.atoms.foldl foldStep emptyAcc).subl_sets k)
      = List.insertionSort (· ≤ ·) ((p.atoms.foldl foldStep emptyAcc).subl_sets k) := by
    intro k
    have hmemiff : ∀ x, x ∈ (p.atoms.foldl foldStep emptyAcc).subl_sets k ↔
        x ∈ (q.atoms.foldl foldStep emptyAcc).subl_sets k := by
      intro x
      rw [foldl_sets_mem, foldl_sets_mem]
      simp only [emptyAcc, List.not_mem_nil, false_or]
      constructor
      · rintro ⟨y, hy, h1, h2⟩; exact ⟨y, hperm.subset hy, h1, h2⟩
      · rintro ⟨y, hy, h1, h2⟩; exact ⟨y, hperm.symm.subset hy, h1, h2⟩
    have hsperm := (List.perm_ext_iff_of_nodup (hsetsnodupP k) (hsetsnodupQ k)).mpr hmemiff
    exact List.eq_of_perm_of_sorted
      ((List.perm_insertionSort _ _).trans (hsperm.symm.trans (List.perm_insertionSort _ _).symm))
      (List.sorted_insertionSort ((· ≤ ·) : List Char → List Char → Prop) _)
      (List.sorted_insertionSort ((· ≤ ·) : List Char → List Char → Prop) _)
  refine ⟨finalizeSQS q (q.atoms.foldl foldStep emptyAcc), hbq, ?_, ?_, ?_, ?_, ?_, ?_, ?_, ?_⟩
  · rw [hd]
    show (List.insertionSort (· ≤ ·) (q.atoms.foldl foldStep emptyAcc).subl_keys).map _
      = (List.insertionSort (· ≤ ·) (p.atoms.foldl foldStep emptyAcc).subl_keys).map _
    rw [hnames]
    exact List.map_congr_left (fun s _ => hsets s)
  · rw [hd]
    exact hnames
  · rw [hd]
    exact List.sorted_insertionSort _ _
  · rw [hd]
    intro m hm
    obtain ⟨s, _, rfl⟩ := List.mem_map.mp hm
    exact ⟨List.sorted_insertionSort _ _,
      ((List.perm_insertionSort _ _).nodup_iff).mpr (hsetsnodupP s)⟩
  · rw [hd]
    show (p.atoms.foldl foldStep emptyAcc).species_list = _
    rw [foldl_species_list]
    simp [emptyAcc]
  · rw [hd]
    show (p.atoms.foldl foldStep emptyAcc).species_positions = _
    rw [foldl_positions]
    simp [emptyAcc]
  · show (q.atoms.foldl foldStep emptyAcc).species_list = _
    rw [foldl_species_list]
    simp [emptyAcc]
  · show (q.atoms.foldl foldStep emptyAcc).species_positions = _
    rw [foldl_positions]
    simp [emptyAcc]

/-- Concrete two-atom parsed file (`a_B` then `2_A`) for the C7
witness. -/
def c7pEx : ParsedLatticeFile Nat := ⟨[], [], [⟨0, ["a_B".data]⟩, ⟨1, ["2_A".data]⟩]⟩

/-- The same file with its atom records swapped. -/
def c7qEx : ParsedLatticeFile Nat := ⟨[], [], [⟨1, ["2_A".data]⟩, ⟨0, ["a_B".data]⟩]⟩

/-- The descriptor the builder produces for `c7pEx`. -/
def c7dEx : AbstractSQS Nat :=
  ⟨["Xab".data, "Xba".data], [0, 1], [["b".data], ["a".data]], ["a".data, "b".data], [], []⟩

/-- C7, witness: the theorem applied to the two-atom file and its
swap. -/
theorem C7_witness :
    ∃ e, buildSQS c7qEx true = .ok e ∧
      e.sublattice_model = c7dEx.sublattice_model ∧
      e.sublattice_names = c7dEx.sublattice_names ∧
      List.Sorted (· ≤ ·) c7dEx.sublattice_names ∧
      (∀ m ∈ c7dEx.sublattice_model, List.Sorted (· ≤ ·) m ∧ m.Nodup) ∧
      c7dEx.species_list = c7pEx.atoms.map decodeLabel ∧
      c7dEx.species_positions = c7pEx.atoms.map AtomRec.pos ∧
      e.species_list = c7qEx.atoms.map decodeLabel ∧
      e.species_positions = c7qEx.atoms.map AtomRec.pos :=
  C7_permutation_invariance c7pEx c7qEx c7dEx (by decide) (by decide)

/-! ## Claim C1 (corrected) -/

/-- Shorthand for a parsed numeral without exponent. -/
def pn (m : Int) (s : Nat) : PNum := ⟨m, s, 0⟩

/-- The claim's end-to-end lattice file: identity coordinate system,
identity lattice, and the two atom records `a_B` and `2_A`. -/
def c1File : List Char :=
  "1 0 0\n0 1 0\n0 0 1\n1 0 0\n0 1 0\n0 0 1\n0 0 0 a_B\n0.5 0.5 0.5 2_A\n".data

/-- What `lat_in_to_sqs` actually produces for `c1File`: the `2_A`
record is never parsed (`Word(alphas, ...)` requires a leading letter
and `parseString` ignores the unmatched tail), and the surviving token
`a_B` is lower-cased wholesale, giving label `Xab`. -/
def c1Actual : AbstractSQS Pos3 :=
  ⟨["Xab".data], [[pn 0 0, pn 0 0, pn 0 0]], [["b".data]], ["a".data],
   [[pn 1 0, pn 0 0, pn 0 0], [pn 0 0, pn 1 0, pn 0 0], [pn 0 0, pn 0 0, pn 1 0]],
   [[pn 1 0, pn 0 0, pn 0 0], [pn 0 0, pn 1 0, pn 0 0], [pn 0 0, pn 0 0, pn 1 0]]⟩

/-- C1, counterexample: on the claimed file the build succeeds but its
sublattice names are `["a"]`, not `["a", "b"]`; the model is `[["b"]]`,
not `[["B"], ["A"]]`; and the labels are `["Xab"]`, not
`["XaB", "XbA"]`. -/
theorem C1_counterexample :
    lat_in_to_sqs c1File true = .ok c1Actual ∧
    c1Actual.sublattice_names ≠ ["a".data, "b".data] ∧
    c1Actual.sublattice_model ≠ [["B".data], ["A".data]] ∧
    c1Actual.species_list ≠ ["XaB".data, "XbA".data] :=
  ⟨by decide, by decide, by decide, by decide⟩

/-- C1 (amended): for the 2-sublattice lattice file with designator
tokens `a_B` and `2_A`, building with rename yields sublattice_names
`["a"]`, sublattice_model `[["b"]]` and the single abstract species
label `"Xab"` aligned with the first position only: the `2_A` record is
dropped by the parser (label words must begin with a letter, and the
unmatched tail of the input is silently ignored), and the entire
surviving token is lower-cased before the split, so the species part is
lower-cased too. -/
theorem C1_end_to_end : lat_in_to_sqs c1File true = .ok c1Actual := by decide

/-! ## Claim C5 (corrected) -/

/-- A lengths/angles lattice file in the form the spec's grammar
describes for alternative (B): one line of three lengths, one line of
three angles, then the lattice vectors and one atom. -/
def c5TwoLineFile : List Char := "3 3 3\n90 90 90\n1 0 0\n0 1 0\n0 0 1\n0 0 0 a_B\n".data

/-- The same lattice file with all six coordinate-system numbers on a
single line. -/
def c5OneLineFile : List Char := "3 3 3 90 90 90\n1 0 0\n0 1 0\n0 0 1\n0 0 0 a_B\n".data

/-- The destructured parse of `c5OneLineFile`: a two-vector coordinate
group (the lengths/angles form) and the lattice vectors taken from the
lines after the angles. -/
def c5OneLineExpected : ParsedLatticeFile Pos3 :=
  ⟨[[pn 3 0, pn 3 0, pn 3 0], [pn 90 0, pn 90 0, pn 90 0]],
   [[pn 1 0, pn 0 0, pn 0 0], [pn 0 0, pn 1 0, pn 0 0], [pn 0 0, pn 0 0, pn 1 0]],
   [⟨[pn 0 0, pn 0 0, pn 0 0], ["a_B".data]⟩]⟩

/-- C5, counterexample: the lengths/angles file written as the spec's
alternative (B) describes it — lengths on one line, angles on the next
— does not parse at all: alternative (A) consumes the lengths line, the
angles line and the first lattice vector as three vector lines, after
which the atom block cannot match.  `parse` raises instead of returning
the lengths/angles form. -/
theorem C5_counterexample : parse_atat_lattice c5TwoLineFile = none := by rfl

/-- Helper input for the C5 witness: three lines of one vector each. -/
def c5ThreeLines : List Char := "1 0 0\n0 1 0\n0 0 1\n".data

/-- The token result of coordinate-system alternative (A) on
`c5ThreeLines`. -/
def c5AResult : Toks × List Char :=
  ([.group [.num (pn 1 0), .num (pn 0 0), .num (pn 0 0)],
    .group [.num (pn 0 0), .num (pn 1 0), .num (pn 0 0)],
    .group [.num (pn 0 0), .num (pn 0 0), .num (pn 1 0)]], [])

/-- C5 (amended): the coordinate-system group tries alternative (A) —
three vector lines — first, and commits to it whenever it matches;
alternative (B) is a vector, a second vector and a single line end, so
it only applies when all six numbers precede the first line break.
Hence the one-line lengths/angles file parses to the lengths/angles
form with the three lattice vectors taken from the following lines,
while the two-line lengths/angles file of the spec's grammar is eaten
by alternative (A) and fails to parse. -/
theorem C5_coord_system_resolution :
    (∀ (s : List Char) (r : Toks × List Char),
      pSeq vectorLineP (pSeq vectorLineP vectorLineP) s = some r →
      coordSysP s = some ([.group r.1], r.2)) ∧
    (parse_atat_lattice c5OneLineFile).bind readParsed = some c5OneLineExpected ∧
    parse_atat_lattice c5TwoLineFile = none := by
  refine ⟨?_, by rfl, by rfl⟩
  intro s r h
  unfold coordSysP pGroup pFirst
  rw [h]

/-- C5, witness: alternative (A) matches the three-vector-line input
and the coordinate-system group commits to its result. -/
theorem C5_witness :
    pSeq vectorLineP (pSeq vectorLineP vectorLineP) c5ThreeLines = some c5AResult ∧
    coordSysP c5ThreeLines = some ([.group c5AResult.1], c5AResult.2) :=
  ⟨by rfl, C5_coord_system_resolution.1 c5ThreeLines c5AResult (by rfl)⟩
